import Mathlib

/-!
Verification development for the MapleStory flame-reroll tool.

The repository has two entry points:
* `dropRate_MesosObt.py` — the "keyword" policy: OCR a region, look for the
  "item drop" / "mesos" keywords, reroll until enough prime lines are found.
* `test2.py` — the "comparative" policy: OCR a before box and an after box,
  parse stat lines, compute a flame score for each, reroll while the after
  score is lower.

Below, each Python function that the claims touch is translated into a Lean
definition over `List Char` (Python `str`), `Int` (Python `int`) and `Rat`
(Python float arithmetic, which is exact on the values involved).
-/

namespace MapleFlame

/-! ### Generic string helpers (Python `str` primitives) -/

/-- Python's `\s` character class restricted to ASCII: space, tab, newline,
carriage return, vertical tab, form feed. -/
def isSpaceChar (c : Char) : Bool :=
  c == ' ' || c == '\t' || c == '\n' || c == '\r' || c == Char.ofNat 11 || c == Char.ofNat 12

/-- `str.lower()` (ASCII model). -/
def lower (t : List Char) : List Char := t.map Char.toLower

/-- Does `n` occur at the very start of `h`? (exact, case sensitive). -/
def startsWith : List Char → List Char → Bool
  | _, [] => true
  | [], _ :: _ => false
  | c :: t, d :: n => c == d && startsWith t n

/-- Python's substring test `n in h` (exact, case sensitive). -/
def listContains : List Char → List Char → Bool
  | [], n => n.isEmpty
  | c :: t, n => startsWith (c :: t) n || listContains t n

/-- Decimal value of a digit string. -/
def digitsVal (ds : List Char) : Nat :=
  ds.foldl (fun a c => a * 10 + (c.toNat - '0'.toNat)) 0

/-- Python's `str.split(sep)` for a one-character separator. -/
def splitOnChar (sep : Char) : List Char → List (List Char)
  | [] => [[]]
  | c :: rest =>
    match splitOnChar sep rest with
    | [] => [[c]]
    | h :: t => if c = sep then [] :: h :: t else (c :: h) :: t

/-! ### `modules/ocr.py`: the keyword-mode extractors

`extract_item_drop_rate` / `extract_mesos_obtained` run
`re.finditer(r"<Label>:?\s*\+?(\d+)%", text, re.IGNORECASE)` and sum the
captured integers.  We model the regex engine for this particular pattern:
at each position try to match the pattern, on success skip past the match
(non-overlapping), otherwise advance one character. -/

/-- Case-insensitive literal match of the (lower-cased) label `lbl` at the
start of `t`; returns the rest of the text on success. -/
def dropLabel : List Char → List Char → Option (List Char)
  | [], t => some t
  | _ :: _, [] => none
  | l :: ls, c :: cs => if c.toLower = l then dropLabel ls cs else none

/-- Consume one optional occurrence of the character `x` (regex `x?`). -/
def dropOne (x : Char) (t : List Char) : List Char :=
  match t with
  | c :: r => if c = x then r else t
  | [] => t

/-- After the label: match `:?\s*\+?(\d+)%`; returns the captured integer and
the remaining text. -/
def matchTail (t1 : List Char) : Option (Nat × List Char) :=
  let t2 := dropOne '+' ((dropOne ':' t1).dropWhile isSpaceChar)
  let ds := t2.takeWhile Char.isDigit
  let t3 := t2.dropWhile Char.isDigit
  if ds = [] then none
  else
    match t3 with
    | '%' :: t4 => some (digitsVal ds, t4)
    | _ => none

/-- Try to match the whole pattern `<lbl>:?\s*\+?(\d+)%` at the start of `t`. -/
def matchPat (lbl t : List Char) : Option (Nat × List Char) :=
  match dropLabel lbl t with
  | none => none
  | some t1 => matchTail t1

/-- Fuel-indexed scan: at each position try `matchPat`; add up all captured
integers of the non-overlapping matches. -/
def scanAux (lbl : List Char) : Nat → List Char → Nat
  | 0, _ => 0
  | _ + 1, [] => 0
  | f + 1, c :: rest =>
    match matchPat lbl (c :: rest) with
    | some (v, r) => v + scanAux lbl f r
    | none => scanAux lbl f rest

/-- Sum of the captured integers over all non-overlapping matches of the
pattern in `t` (the value computed by `re.finditer` + accumulation). -/
def scanSum (lbl t : List Char) : Nat := scanAux lbl t.length t

def itemLabel : List Char := "item drop rate".data

def mesosLabel : List Char := "mesos obtained".data

/-- `ocr.extract_item_drop_rate`: sum of all `Item Drop Rate:? +?(\d+)%`
matches, case-insensitively; 0 when there is no match. -/
def extract_item_drop_rate (text : List Char) : Nat := scanSum itemLabel text

/-- `ocr.extract_mesos_obtained`: sum of all `Mesos Obtained:? +?(\d+)%`
matches, case-insensitively; 0 when there is no match. -/
def extract_mesos_obtained (text : List Char) : Nat := scanSum mesosLabel text

/-! ### `test2.py`: comparative-mode parser and scorer -/

/-- The `stats` dictionary of `test2.extract_stats`. -/
structure StatMapping where
  main_stat : Int
  secondary_stat : Int
  weapon_attack : Int
  magic_attack : Int
  all_stat_percent : Int
  deriving DecidableEq, Repr

/-- One pass of Python `str.replace(ab, c)` for a two-character pattern
`[a, b]` and a one-character replacement `c` (left-to-right, no rescan of the
replacement). -/
def replTwo (a b c : Char) : List Char → List Char
  | x :: y :: rest =>
    if x = a ∧ y = b then c :: replTwo a b c rest
    else x :: replTwo a b c (y :: rest)
  | l => l

/-- `line.replace(" +", "+").replace("+ ", "+")`. -/
def normLine (l : List Char) : List Char := replTwo '+' ' ' '+' (replTwo ' ' '+' '+' l)

/-- Strip leading and trailing whitespace. -/
def stripWs (l : List Char) : List Char :=
  ((l.dropWhile isSpaceChar).reverse.dropWhile isSpaceChar).reverse

/-- Python's `int(str)` builtin on the strings this program feeds it:
optional surrounding whitespace, optional sign, one or more digits
(digit-group underscores and non-ASCII digits are not modelled).
`none` models the `ValueError` that the source catches with `pass`. -/
def pyInt (l : List Char) : Option Int :=
  match stripWs l with
  | '+' :: ds => if ds ≠ [] ∧ ds.all Char.isDigit then some (digitsVal ds : Int) else none
  | '-' :: ds => if ds ≠ [] ∧ ds.all Char.isDigit then some (-(digitsVal ds : Int)) else none
  | ds => if ds ≠ [] ∧ ds.all Char.isDigit then some (digitsVal ds : Int) else none

/-- The element at index 1, i.e. Python `xs[1]` under a `try` catching
`IndexError`. -/
def secondSeg (l : List (List Char)) : Option (List Char) :=
  match l with
  | _ :: s :: _ => some s
  | _ => none

/-- `int(line.split("+")[1])`, with `IndexError`/`ValueError` giving `none`;
when `stripPct` is set, `%` signs are removed first
(`value.replace("%", "")`, the All Stats branch). -/
def plusIntOf (stripPct : Bool) (l : List Char) : Option Int :=
  match secondSeg (splitOnChar '+' l) with
  | some seg => pyInt (if stripPct then seg.filter (fun c => c != '%') else seg)
  | none => none

/-- The static configuration of `test2.py`: the `MAIN_STAT` and
`SECONDARY_STAT` globals. -/
structure Cfg where
  mainStat : List Char
  secondaryStat : List Char

/-- `MAIN_STAT = DEX`, `SECONDARY_STAT = STR`. -/
def defaultCfg : Cfg := ⟨"DEX".data, "STR".data⟩

def wAtkLong : List Char := "WEAPON ATTACK".data

def wAtkShort : List Char := "WEAPON ATT".data

def allStatsLabel : List Char := "All Stats".data

/-- The `if MAIN_STAT in line: stats["main_stat"] = int(line.split("+")[1])`
block (exception → keep the previous value). -/
def updMain (cfg : Cfg) (l : List Char) (s : StatMapping) : StatMapping :=
  if listContains l cfg.mainStat then
    match plusIntOf false l with
    | some v => { s with main_stat := v }
    | none => s
  else s

/-- The `SECONDARY_STAT` block. -/
def updSecondary (cfg : Cfg) (l : List Char) (s : StatMapping) : StatMapping :=
  if listContains l cfg.secondaryStat then
    match plusIntOf false l with
    | some v => { s with secondary_stat := v }
    | none => s
  else s

/-- The `"WEAPON ATTACK" in line or "WEAPON ATT" in line` block. -/
def updWeapon (l : List Char) (s : StatMapping) : StatMapping :=
  if listContains l wAtkLong || listContains l wAtkShort then
    match plusIntOf false l with
    | some v => { s with weapon_attack := v }
    | none => s
  else s

/-- The `"All Stats" in line` block (strips `%` before `int`). -/
def updAllStat (l : List Char) (s : StatMapping) : StatMapping :=
  if listContains l allStatsLabel then
    match plusIntOf true l with
    | some v => { s with all_stat_percent := v }
    | none => s
  else s

/-- The body of `extract_stats`'s `for line in lines` loop: normalise the
line, then run the four independent label blocks in source order. -/
def processLine (cfg : Cfg) (s : StatMapping) (line : List Char) : StatMapping :=
  let l := normLine line
  updAllStat l (updWeapon l (updSecondary cfg l (updMain cfg l s)))

/-- `test2.extract_stats` restricted to its text processing: split the OCR
text into lines and fold the per-line updates over the zero-initialised
stats dictionary. -/
def extract_stats (cfg : Cfg) (text : List Char) : StatMapping :=
  (splitOnChar '\n' text).foldl (processLine cfg) ⟨0, 0, 0, 0, 0⟩

/-- `test2.calculate_flame_score`:
`main + weapon*4 + all_stat%*8 + secondary/8` (true division). -/
def calculate_flame_score (stats : StatMapping) : Rat :=
  let main_stat_value : Rat := stats.main_stat
  let weapon_att_value : Rat := (stats.weapon_attack : Rat) * 4
  let all_stat_value : Rat := (stats.all_stat_percent : Rat) * 8
  let secondary_stat_value : Rat := (stats.secondary_stat : Rat) / 8
  main_stat_value + weapon_att_value + all_stat_value + secondary_stat_value

/-! ### `dropRate_MesosObt.py`: the keyword decision loop -/

/-- `text_history.append(t)` followed by `if len > 3: pop(0)`. -/
def push3 (h : List (List Char)) (t : List Char) : List (List Char) :=
  let h' := h ++ [t]
  if h'.length > 3 then h'.drop 1 else h'

/-- `len(text_history) == 3 and text_history[0] == text_history[1] == text_history[2]`. -/
def stuckCheck (h : List (List Char)) : Bool :=
  match h with
  | [a, b, c] => a == b && b == c
  | _ => false

/-- The two keyword-presence flags of `scan_for_stats` and their count:
`"item drop" in text.lower()` and `"mesos" in text.lower()`. -/
def primeCount (t : List Char) : Nat :=
  (if listContains (lower t) ("item drop".data) then 1 else 0) +
  (if listContains (lower t) ("mesos".data) then 1 else 0)

/-- The keyword-policy success threshold: 1 normally, 2 under `--max`. -/
def threshold (maxMode : Bool) : Nat := if maxMode then 2 else 1

/-- `for k in range(n): if check_stop_key(): stop` — true iff the stop key is
seen at one of the `n` polls starting at slice index `k`. -/
def delayCancelledAux (f : Nat → Bool) : Nat → Nat → Bool
  | _, 0 => false
  | k, n + 1 => if f k then true else delayCancelledAux f (k + 1) n

/-- The environment of one keyword-policy iteration: the stop-key state at
loop entry, the OCR sample (`none` models `scan_for_stats` catching an
exception and returning `None`), and the stop-key state at each delay slice. -/
structure KInput where
  stopAtEntry : Bool
  sample : Option (List Char)
  stopSlice : Nat → Bool

inductive KRes where
  | succeeded
  | stuck
  | cancelled
  deriving DecidableEq, Repr

inductive KStepRes where
  | done (r : KRes)
  | next (hist : List (List Char))
  deriving DecidableEq, Repr

/-- One iteration of `dropRate_MesosObt.main`'s `while True` loop. -/
def kStep (maxMode : Bool) (hist : List (List Char)) (i : KInput) : KStepRes :=
  if i.stopAtEntry then .done .cancelled
  else
    match i.sample with
    | some t =>
      if stuckCheck (push3 hist t) then .done .stuck
      else if (maxMode = false ∧ 0 < primeCount t) ∨ (maxMode = true ∧ 2 ≤ primeCount t) then
        .done .succeeded
      else if delayCancelledAux i.stopSlice 0 4 then .done .cancelled
      else .next (push3 hist t)
    | none =>
      if delayCancelledAux i.stopSlice 0 4 then .done .cancelled
      else .next hist

inductive KResult where
  | succeeded
  | stuck
  | cancelled
  | ranOut (hist : List (List Char))
  deriving DecidableEq, Repr

/-- Run the keyword loop over a script of per-iteration environments. -/
def kRun (maxMode : Bool) (hist : List (List Char)) : List KInput → KResult
  | [] => .ranOut hist
  | i :: rest =>
    match kStep maxMode hist i with
    | .done .succeeded => .succeeded
    | .done .stuck => .stuck
    | .done .cancelled => .cancelled
    | .next h' => kRun maxMode h' rest

/-! ### `test2.py`: the comparative decision loop -/

/-- The environment of one comparative-policy iteration.  `none` for a
capture models the capture/OCR collaborator raising inside the loop body. -/
structure CInput where
  stop1 : Bool
  beforeTxt : Option (List Char)
  afterTxt : Option (List Char)
  stop2 : Bool
  stopSlice : Nat → Bool

inductive CRes where
  | succeeded
  | cancelled
  | crashed
  deriving DecidableEq, Repr

inductive CStepRes where
  | done (r : CRes)
  | next
  deriving DecidableEq, Repr

/-- One iteration of `test2.main`'s `while True` loop.  The whole loop sits
inside a single `try`, so an exception while sampling (`.crashed`) ends the
run; it is not caught per-iteration. -/
def cStep (cfg : Cfg) (i : CInput) : CStepRes :=
  if i.stop1 then .done .cancelled
  else
    match i.beforeTxt with
    | none => .done .crashed
    | some tb =>
      match i.afterTxt with
      | none => .done .crashed
      | some ta =>
        if i.stop2 then .done .cancelled
        else if calculate_flame_score (extract_stats cfg ta) <
                calculate_flame_score (extract_stats cfg tb) then
          if delayCancelledAux i.stopSlice 0 4 then .done .cancelled else .next
        else .done .succeeded

inductive CResult where
  | succeeded
  | cancelled
  | crashed
  | ranOut
  deriving DecidableEq, Repr

/-- Run the comparative loop over a script of per-iteration environments. -/
def cRun (cfg : Cfg) : List CInput → CResult
  | [] => .ranOut
  | i :: rest =>
    match cStep cfg i with
    | .done .succeeded => .succeeded
    | .done .cancelled => .cancelled
    | .done .crashed => .crashed
    | .next => cRun cfg rest

/-! ### The sliced inter-attempt delay, as a trace of events -/

inductive DEv where
  | check
  | wait (d : Rat)
  deriving DecidableEq, Repr

/-- The event trace of `for k in range(n): if check_stop_key(): stop;
time.sleep(slice)` starting at slice index `k`. -/
def delayTraceAux (slice : Rat) (f : Nat → Bool) : Nat → Nat → List DEv
  | _, 0 => []
  | k, n + 1 =>
    .check :: (if f k then [] else .wait slice :: delayTraceAux slice f (k + 1) n)

/-- The event trace of one full inter-attempt delay (4 slices). -/
def delayTrace (slice : Rat) (f : Nat → Bool) : List DEv := delayTraceAux slice f 0 4

/-- `okT armed tr` holds when every `wait` in `tr` is immediately preceded by
a `check` (`armed` records whether the previous event was a check). -/
def okT (armed : Bool) : List DEv → Bool
  | [] => true
  | .check :: r => okT true r
  | .wait _ :: r => armed && okT false r

/-- Total time slept along a trace. -/
def waitTotal : List DEv → Rat
  | [] => 0
  | .check :: r => waitTotal r
  | .wait d :: r => d + waitTotal r

/-! ### Lemmas about the delay loop -/

lemma delayCancelledAux_eq_false (f : Nat → Bool) (hf : ∀ k, f k = false) :
    ∀ n k, delayCancelledAux f k n = false := by
  intro n
  induction n with
  | zero => intro k; rfl
  | succ n ih => intro k; simp [delayCancelledAux, hf k, ih]

lemma delayCancelledAux_iff (f : Nat → Bool) :
    ∀ n k, delayCancelledAux f k n = true ↔ ∃ j, j < n ∧ f (k + j) = true := by
  intro n
  induction n with
  | zero => intro k; simp [delayCancelledAux]
  | succ n ih =>
    intro k
    cases hk : f k with
    | true =>
      constructor
      · intro _
        exact ⟨0, by omega, by simpa using hk⟩
      · intro _
        simp [delayCancelledAux, hk]
    | false =>
      have hstep : delayCancelledAux f k (n + 1) = delayCancelledAux f (k + 1) n := by
        simp [delayCancelledAux, hk]
      rw [hstep, ih (k + 1)]
      constructor
      · rintro ⟨j, hj, hf⟩
        refine ⟨j + 1, by omega, ?_⟩
        have e : k + (j + 1) = k + 1 + j := by omega
        rw [e]
        exact hf
      · rintro ⟨j, hj, hf⟩
        cases j with
        | zero =>
          exfalso
          rw [Nat.add_zero, hk] at hf
          exact Bool.false_ne_true hf
        | succ j =>
          refine ⟨j, by omega, ?_⟩
          have e : k + 1 + j = k + (j + 1) := by omega
          rw [e]
          exact hf

lemma okT_delayTraceAux (slice : Rat) (f : Nat → Bool) :
    ∀ n k, okT false (delayTraceAux slice f k n) = true := by
  intro n
  induction n with
  | zero => intro k; rfl
  | succ n ih =>
    intro k
    by_cases hk : f k = true
    · simp [delayTraceAux, okT, hk]
    · simp only [Bool.not_eq_true] at hk
      simp [delayTraceAux, okT, hk, ih (k + 1)]

lemma wait_mem_delayTraceAux (slice : Rat) (f : Nat → Bool) :
    ∀ n k d, DEv.wait d ∈ delayTraceAux slice f k n → d = slice := by
  intro n
  induction n with
  | zero => intro k d h; simp [delayTraceAux] at h
  | succ n ih =>
    intro k d h
    simp only [delayTraceAux, List.mem_cons] at h
    rcases h with h | h
    · cases h
    · by_cases hk : f k = true
      · simp [hk] at h
      · simp only [Bool.not_eq_true] at hk
        simp only [hk, Bool.false_eq_true, if_false, List.mem_cons] at h
        rcases h with h | h
        · cases h; rfl
        · exact ih (k + 1) d h

lemma waitTotal_delayTraceAux (slice : Rat) (f : Nat → Bool) (hf : ∀ k, f k = false) :
    ∀ n k, waitTotal (delayTraceAux slice f k n) = n * slice := by
  intro n
  induction n with
  | zero => intro k; simp [delayTraceAux, waitTotal]
  | succ n ih =>
    intro k
    simp only [delayTraceAux, hf k, Bool.false_eq_true, if_false, waitTotal, ih (k + 1)]
    push_cast
    ring

/-! ### Lemmas about the keyword loop state -/

lemma push3_eq (h : List (List Char)) (t : List Char) (hl : h.length ≤ 3) :
    push3 h t = (if h.length = 3 then h.drop 1 else h) ++ [t] := by
  show (if (h ++ [t]).length > 3 then (h ++ [t]).drop 1 else h ++ [t]) = _
  by_cases hc : h.length = 3
  · have hgt : (h ++ [t]).length > 3 := by simp [hc]
    rw [if_pos hgt, if_pos hc, List.drop_append_of_le_length (by omega)]
  · have hgt : ¬ (h ++ [t]).length > 3 := by simp only [List.length_append]; simp; omega
    rw [if_neg hgt, if_neg hc]

lemma push3_len (h : List (List Char)) (t : List Char) (hl : h.length ≤ 3) :
    (push3 h t).length ≤ 3 := by
  rw [push3_eq h t hl]
  by_cases hc : h.length = 3
  · rw [if_pos hc]
    simp only [List.length_append, List.length_drop, List.length_cons, List.length_nil]
    omega
  · rw [if_neg hc]
    simp only [List.length_append, List.length_cons, List.length_nil]
    omega

lemma kStep_next_len {mm : Bool} {h h' : List (List Char)} {i : KInput}
    (hl : h.length ≤ 3) (hstep : kStep mm h i = .next h') : h'.length ≤ 3 := by
  unfold kStep at hstep
  split at hstep
  · cases hstep
  · split at hstep
    · split at hstep
      · cases hstep
      · split at hstep
        · cases hstep
        · split at hstep
          · cases hstep
          · cases hstep
            exact push3_len h _ hl
    · split at hstep
      · cases hstep
      · cases hstep
        exact hl

lemma kRun_ranOut_len {mm : Bool} :
    ∀ (script : List KInput) (h h' : List (List Char)), h.length ≤ 3 →
      kRun mm h script = .ranOut h' → h'.length ≤ 3 := by
  intro script
  induction script with
  | nil =>
    intro h h' hl hrun
    cases hrun
    exact hl
  | cons i rest ih =>
    intro h h' hl hrun
    unfold kRun at hrun
    split at hrun
    · cases hrun
    · cases hrun
    · cases hrun
    · exact ih _ h' (kStep_next_len hl (by assumption)) hrun

lemma kRun_cons (mm : Bool) (h : List (List Char)) (i : KInput) (rest : List KInput) :
    kRun mm h (i :: rest) =
      match kStep mm h i with
      | .done .succeeded => .succeeded
      | .done .stuck => .stuck
      | .done .cancelled => .cancelled
      | .next h' => kRun mm h' rest := rfl

lemma cRun_cons (cfg : Cfg) (i : CInput) (rest : List CInput) :
    cRun cfg (i :: rest) =
      match cStep cfg i with
      | .done .succeeded => .succeeded
      | .done .cancelled => .cancelled
      | .done .crashed => .crashed
      | .next => cRun cfg rest := rfl

/-! ### Claim C1: the stuck detector -/

/-- C1: the stuck detector signals stuck exactly when the history holds
exactly 3 entries that are character-for-character identical; histories of
length below 3, or with a differing entry, never signal stuck; and once a
scripted run has produced the same non-winning sample 3 times, the loop
stops as `Stuck` without consuming any further scripted sampling step. -/
theorem C1_stuck_detector :
    (∀ h : List (List Char),
      stuckCheck h = true ↔ ∃ a b c, h = [a, b, c] ∧ a = b ∧ b = c) ∧
    (∀ h : List (List Char), h.length < 3 → stuckCheck h = false) ∧
    (∀ (mm : Bool) (t : List Char) (i : KInput) (rest : List KInput),
      i.stopAtEntry = false → i.sample = some t → (∀ k, i.stopSlice k = false) →
      ¬ ((mm = false ∧ 0 < primeCount t) ∨ (mm = true ∧ 2 ≤ primeCount t)) →
      kRun mm [] (i :: i :: i :: rest) = .stuck) := by
  refine ⟨?_, ?_, ?_⟩
  · intro h
    constructor
    · intro hs
      rcases h with _ | ⟨a, _ | ⟨b, _ | ⟨c, _ | ⟨d, t⟩⟩⟩⟩
      · exact absurd hs Bool.false_ne_true
      · exact absurd hs Bool.false_ne_true
      · exact absurd hs Bool.false_ne_true
      · simp only [stuckCheck, Bool.and_eq_true, beq_iff_eq] at hs
        exact ⟨a, b, c, rfl, hs.1, hs.2⟩
      · exact absurd hs Bool.false_ne_true
    · rintro ⟨a, b, c, rfl, rfl, rfl⟩
      simp [stuckCheck]
  · intro h hl
    rcases h with _ | ⟨a, _ | ⟨b, _ | ⟨c, _ | ⟨d, t⟩⟩⟩⟩
    · rfl
    · rfl
    · rfl
    · exfalso
      simp at hl
    · rfl
  · intro mm t i rest h1 h2 h3 h4
    have hd : delayCancelledAux i.stopSlice 0 4 = false :=
      delayCancelledAux_eq_false i.stopSlice h3 4 0
    have s1 : kStep mm [] i = .next [t] := by
      simp only [kStep, h1, Bool.false_eq_true, if_false, h2]
      rw [if_neg (by exact Bool.false_ne_true), if_neg h4, if_neg (by simp [hd])]
      rfl
    have s2 : kStep mm [t] i = .next [t, t] := by
      simp only [kStep, h1, Bool.false_eq_true, if_false, h2]
      rw [if_neg (by exact Bool.false_ne_true), if_neg h4, if_neg (by simp [hd])]
      rfl
    have s3 : kStep mm [t, t] i = .done .stuck := by
      simp only [kStep, h1, Bool.false_eq_true, if_false, h2]
      rw [if_pos (by show stuckCheck [t, t, t] = true; simp [stuckCheck])]
    calc kRun mm [] (i :: i :: i :: rest)
        = kRun mm [t] (i :: i :: rest) := by rw [kRun_cons, s1]
      _ = kRun mm [t, t] (i :: rest) := by rw [kRun_cons, s2]
      _ = .stuck := by rw [kRun_cons, s3]

def c1input : KInput := ⟨false, some "hello there".data, fun _ => false⟩

theorem C1_stuck_detector_witness :
    kRun false [] [c1input, c1input, c1input] = .stuck :=
  C1_stuck_detector.2.2 false ("hello there".data) c1input [] rfl rfl (fun _ => rfl)
    (by decide)

/-! ### Claim C2: the flame-score formula -/

/-- C2: the scorer returns exactly
`primary + weapon_power*4 + all_stats_percent*8 + secondary/8` with real
division in the secondary term, and in particular
`score(primary=100, secondary=80, weapon=50, allStats=10) = 390`. -/
theorem C2_flame_score_formula :
    (∀ s : StatMapping,
      calculate_flame_score s =
        (s.main_stat : Rat) + (s.weapon_attack : Rat) * 4 +
          (s.all_stat_percent : Rat) * 8 + (s.secondary_stat : Rat) / 8) ∧
    calculate_flame_score ⟨100, 80, 50, 0, 10⟩ = 390 := by
  constructor
  · intro s
    rfl
  · show (100 : Rat) + 50 * 4 + 10 * 8 + 80 / 8 = 390
    norm_num

/-! ### Claim C3: the comparative policy accepts ties -/

/-- C3: in the comparative policy, whenever `Score(after) ≥ Score(before)`
the iteration terminates the loop with `Succeeded` (so a tie is a success),
and only when `Score(after) < Score(before)` does the loop invoke the retry
action and continue to the next iteration. -/
theorem C3_comparative_accepts_ties :
    ∀ (cfg : Cfg) (i : CInput) (tb ta : List Char),
      i.stop1 = false → i.stop2 = false →
      i.beforeTxt = some tb → i.afterTxt = some ta →
      (calculate_flame_score (extract_stats cfg tb) ≤
          calculate_flame_score (extract_stats cfg ta) →
        cStep cfg i = .done .succeeded) ∧
      (calculate_flame_score (extract_stats cfg ta) <
          calculate_flame_score (extract_stats cfg tb) →
        (∀ k, i.stopSlice k = false) →
        cStep cfg i = .next) := by
  intro cfg i tb ta h1 h2 hb ha
  constructor
  · intro hle
    simp only [cStep, h1, Bool.false_eq_true, if_false, hb, ha, h2]
    rw [if_neg (not_lt.2 hle)]
  · intro hlt hpolls
    simp only [cStep, h1, Bool.false_eq_true, if_false, hb, ha, h2]
    rw [if_pos hlt,
      if_neg (by simp [delayCancelledAux_eq_false i.stopSlice hpolls 4 0])]

theorem C3_comparative_accepts_ties_witness :
    cStep defaultCfg ⟨false, some "".data, some "".data, false, fun _ => false⟩ =
      .done .succeeded ∧
    cStep defaultCfg ⟨false, some "DEX +8".data, some "".data, false, fun _ => false⟩ =
      .next := by
  have e0 : extract_stats defaultCfg ("".data) = ⟨0, 0, 0, 0, 0⟩ := by decide
  have e8 : extract_stats defaultCfg ("DEX +8".data) = ⟨8, 0, 0, 0, 0⟩ := by decide
  constructor
  · refine (C3_comparative_accepts_ties defaultCfg _ _ _ rfl rfl rfl rfl).1 ?_
    rw [e0]
  · refine (C3_comparative_accepts_ties defaultCfg _ _ _ rfl rfl rfl rfl).2 ?_ (fun _ => rfl)
    rw [e0, e8]
    show (0 : Rat) + 0 * 4 + 0 * 8 + 0 / 8 < 8 + 0 * 4 + 0 * 8 + 0 / 8
    norm_num

/-! ### Claim C4: the keyword-policy success threshold -/

/-- C4: in the keyword policy, an iteration whose sample does not trigger the
stuck detector ends the run as `Succeeded` iff the prime-line count (keyword
presence per category in the lower-cased text) reaches the threshold: 1 in
standard mode, 2 in `--max` mode; otherwise the loop retries and continues. -/
theorem C4_keyword_goal_threshold :
    ∀ (mm : Bool) (hist : List (List Char)) (i : KInput) (t : List Char),
      i.stopAtEntry = false → i.sample = some t →
      stuckCheck (push3 hist t) = false → (∀ k, i.stopSlice k = false) →
      kStep mm hist i =
        if threshold mm ≤ primeCount t then .done .succeeded
        else .next (push3 hist t) := by
  intro mm hist i t h1 h2 hstuck hpolls
  have hiff : ((mm = false ∧ 0 < primeCount t) ∨ (mm = true ∧ 2 ≤ primeCount t)) ↔
      threshold mm ≤ primeCount t := by
    cases mm <;> simp [threshold] <;> omega
  simp only [kStep, h1, Bool.false_eq_true, if_false, h2]
  rw [if_neg (by simp [hstuck])]
  by_cases hp : threshold mm ≤ primeCount t
  · rw [if_pos (hiff.2 hp), if_pos hp]
  · rw [if_neg (fun hc => hp (hiff.1 hc)), if_neg hp,
      if_neg (by simp [delayCancelledAux_eq_false i.stopSlice hpolls 4 0])]

def c4input : KInput := ⟨false, some "Item Drop Rate: +3%".data, fun _ => false⟩

theorem C4_keyword_goal_threshold_witness :
    kStep false [] c4input = .done .succeeded := by
  rw [C4_keyword_goal_threshold false [] c4input ("Item Drop Rate: +3%".data)
    rfl rfl (by decide) (fun _ => rfl)]
  decide

/-! ### Claim C9: the history is a bounded FIFO -/

/-- C9: the raw-text history is a bounded order-preserving FIFO: appending a
sample to a history of length ≤ 3 appends it at the tail and drops the oldest
entry exactly when the history already held 3 entries, keeping the length ≤ 3;
the loop step preserves this bound, and any scripted run started from the
empty history ends (when its script runs out) with a history of length ≤ 3. -/
theorem C9_history_bounded_fifo :
    (∀ (h : List (List Char)) (t : List Char), h.length ≤ 3 →
      push3 h t = (if h.length = 3 then h.drop 1 else h) ++ [t] ∧
      (push3 h t).length ≤ 3) ∧
    (∀ (mm : Bool) (h h' : List (List Char)) (i : KInput), h.length ≤ 3 →
      kStep mm h i = .next h' → h'.length ≤ 3) ∧
    (∀ (mm : Bool) (script : List KInput) (h' : List (List Char)),
      kRun mm [] script = .ranOut h' → h'.length ≤ 3) := by
  refine ⟨?_, ?_, ?_⟩
  · intro h t hl
    exact ⟨push3_eq h t hl, push3_len h t hl⟩
  · intro mm h h' i hl hstep
    exact kStep_next_len hl hstep
  · intro mm script h' hrun
    exact kRun_ranOut_len script [] h' (by simp) hrun

def c9a : KInput := ⟨false, some "a".data, fun _ => false⟩

def c9b : KInput := ⟨false, some "b".data, fun _ => false⟩

def c9c : KInput := ⟨false, some "c".data, fun _ => false⟩

def c9d : KInput := ⟨false, some "d".data, fun _ => false⟩

theorem C9_history_bounded_fifo_witness :
    (["b".data, "c".data, "d".data] : List (List Char)).length ≤ 3 ∧
    kRun false [] [c9a, c9b, c9c, c9d] = .ranOut ["b".data, "c".data, "d".data] :=
  ⟨C9_history_bounded_fifo.2.2 false [c9a, c9b, c9c, c9d] _ (by decide), by decide⟩

/-! ### Claim C10: magic attack is dead -/

lemma updMain_magic (cfg : Cfg) (l : List Char) (s : StatMapping) :
    (updMain cfg l s).magic_attack = s.magic_attack := by
  rw [updMain]
  split
  · split <;> rfl
  · rfl

lemma updSecondary_magic (cfg : Cfg) (l : List Char) (s : StatMapping) :
    (updSecondary cfg l s).magic_attack = s.magic_attack := by
  rw [updSecondary]
  split
  · split <;> rfl
  · rfl

lemma updWeapon_magic (l : List Char) (s : StatMapping) :
    (updWeapon l s).magic_attack = s.magic_attack := by
  rw [updWeapon]
  split
  · split <;> rfl
  · rfl

lemma updAllStat_magic (l : List Char) (s : StatMapping) :
    (updAllStat l s).magic_attack = s.magic_attack := by
  rw [updAllStat]
  split
  · split <;> rfl
  · rfl

lemma processLine_magic (cfg : Cfg) (s : StatMapping) (line : List Char) :
    (processLine cfg s line).magic_attack = s.magic_attack := by
  rw [processLine, updAllStat_magic, updWeapon_magic, updSecondary_magic, updMain_magic]

lemma foldl_magic (cfg : Cfg) :
    ∀ (lines : List (List Char)) (s : StatMapping),
      (lines.foldl (processLine cfg) s).magic_attack = s.magic_attack := by
  intro lines
  induction lines with
  | nil => intro s; rfl
  | cons l rest ih =>
    intro s
    rw [List.foldl_cons, ih, processLine_magic]

/-- C10: the comparative-mode parser never assigns the magic-power field —
it is 0 for every input text and configuration — and the flame score does not
depend on that field. -/
theorem C10_magic_attack_dead :
    (∀ (cfg : Cfg) (text : List Char), (extract_stats cfg text).magic_attack = 0) ∧
    (∀ (s : StatMapping) (m : Int),
      calculate_flame_score { s with magic_attack := m } = calculate_flame_score s) := by
  constructor
  · intro cfg text
    rw [extract_stats, foldl_magic]
  · intro s m
    rfl

/-! ### Claim C8: the sliced delay and cancellation polling -/

/-- C8: the inter-attempt delay is split into 4 slices; the produced
event trace never contains a sleep that is not immediately preceded by a
cancellation check, every sleep lasts exactly one slice, an uncancelled delay
sleeps exactly 4 slices in total, the delay loop reports cancellation iff
some of its polls sees the signal, the signal is also polled at loop entry in
both policies, and a signal observed during the delay (or at entry) makes the
loop stop with outcome `Cancelled`. -/
theorem C8_sliced_delay_cancellation :
    (∀ (slice : Rat) (f : Nat → Bool), okT false (delayTrace slice f) = true) ∧
    (∀ (slice : Rat) (f : Nat → Bool) (d : Rat),
      DEv.wait d ∈ delayTrace slice f → d = slice) ∧
    (∀ (slice : Rat) (f : Nat → Bool), (∀ k, f k = false) →
      waitTotal (delayTrace slice f) = 4 * slice) ∧
    (∀ (f : Nat → Bool) (k n : Nat),
      delayCancelledAux f k n = true ↔ ∃ j, j < n ∧ f (k + j) = true) ∧
    (∀ (mm : Bool) (hist : List (List Char)) (i : KInput),
      i.stopAtEntry = true → kStep mm hist i = .done .cancelled) ∧
    (∀ (cfg : Cfg) (i : CInput), i.stop1 = true → cStep cfg i = .done .cancelled) ∧
    (∀ (mm : Bool) (hist : List (List Char)) (i : KInput),
      i.stopAtEntry = false → i.sample = none →
      (∃ j, j < 4 ∧ i.stopSlice j = true) →
      kStep mm hist i = .done .cancelled) ∧
    (∀ (cfg : Cfg) (i : CInput) (tb ta : List Char),
      i.stop1 = false → i.stop2 = false →
      i.beforeTxt = some tb → i.afterTxt = some ta →
      calculate_flame_score (extract_stats cfg ta) <
        calculate_flame_score (extract_stats cfg tb) →
      (∃ j, j < 4 ∧ i.stopSlice j = true) →
      cStep cfg i = .done .cancelled) := by
  refine ⟨?_, ?_, ?_, ?_, ?_, ?_, ?_, ?_⟩
  · intro slice f
    exact okT_delayTraceAux slice f 4 0
  · intro slice f d hmem
    exact wait_mem_delayTraceAux slice f 4 0 d hmem
  · intro slice f hf
    have := waitTotal_delayTraceAux slice f hf 4 0
    rw [delayTrace, this]
    norm_num
  · intro f k n
    exact delayCancelledAux_iff f n k
  · intro mm hist i h
    simp only [kStep, h, if_true]
  · intro cfg i h
    simp only [cStep, h, if_true]
  · intro mm hist i h1 h2 hsig
    have hd : delayCancelledAux i.stopSlice 0 4 = true := by
      rw [delayCancelledAux_iff]
      obtain ⟨j, hj, hf⟩ := hsig
      exact ⟨j, hj, by simpa using hf⟩
    simp only [kStep, h1, Bool.false_eq_true, if_false, h2]
    rw [if_pos (by simp [hd])]
  · intro cfg i tb ta h1 h2 hb ha hlt hsig
    have hd : delayCancelledAux i.stopSlice 0 4 = true := by
      rw [delayCancelledAux_iff]
      obtain ⟨j, hj, hf⟩ := hsig
      exact ⟨j, hj, by simpa using hf⟩
    simp only [cStep, h1, Bool.false_eq_true, if_false, hb, ha, h2]
    rw [if_pos hlt, if_pos (by simp [hd])]

def c8input : KInput := ⟨false, none, fun k => decide (k = 1)⟩

theorem C8_sliced_delay_cancellation_witness :
    waitTotal (delayTrace (1 / 4 : Rat) (fun _ => false)) = 4 * (1 / 4 : Rat) ∧
    kStep false [] c8input = .done .cancelled :=
  ⟨C8_sliced_delay_cancellation.2.2.1 (1 / 4) _ (fun _ => rfl),
   C8_sliced_delay_cancellation.2.2.2.2.2.2.1 false [] c8input rfl rfl
     ⟨1, by decide, by decide⟩⟩

/-! ### Claim C7: sampling-failure handling differs between the policies

The claim says both policies catch a sampling failure at the loop boundary
and continue.  That is true of the keyword policy (`scan_for_stats` has its
own `try`/`except` and returns `None`), but in `test2.main` the single `try`
wraps the whole `while` loop, so an exception raised while capturing or
extracting terminates the run. -/

def c7fail : CInput := ⟨false, none, some "".data, false, fun _ => false⟩

def c7good : CInput := ⟨false, some "".data, some "".data, false, fun _ => false⟩

/-- C7 counterexample: in the comparative policy a sampling failure ends the
whole run as a crash; had the loop skipped the iteration and continued (as
the claim states for both policies), the rest of this script would have
ended with `Succeeded`. -/
theorem C7_counterexample_comparative_crashes :
    cRun defaultCfg [c7fail, c7good] = .crashed ∧
    cRun defaultCfg [c7good] = .succeeded ∧
    CResult.crashed ≠ CResult.succeeded := by
  have hfail : cStep defaultCfg c7fail = .done .crashed := rfl
  have hgood : cStep defaultCfg c7good = .done .succeeded := by
    simp only [cStep, c7good, Bool.false_eq_true, if_false]
    rw [if_neg (lt_irrefl _)]
  refine ⟨?_, ?_, by decide⟩
  · rw [cRun_cons, hfail]
  · rw [cRun_cons, hgood]

/-- C7 (amended): in the keyword policy a sampling failure is caught inside
`scan_for_stats` (the iteration produces no sample) and the loop proceeds to
the next iteration unchanged; in the comparative policy a sampling failure
propagates to the top-level handler and terminates the run. -/
theorem C7_sampling_failure_handling :
    (∀ (mm : Bool) (hist : List (List Char)) (i : KInput),
      i.stopAtEntry = false → i.sample = none → (∀ k, i.stopSlice k = false) →
      kStep mm hist i = .next hist) ∧
    (∀ (cfg : Cfg) (i : CInput) (rest : List CInput),
      i.stop1 = false → (i.beforeTxt = none ∨ i.afterTxt = none) →
      cRun cfg (i :: rest) = .crashed) := by
  constructor
  · intro mm hist i h1 h2 hpolls
    simp only [kStep, h1, Bool.false_eq_true, if_false, h2]
    rw [if_neg (by simp [delayCancelledAux_eq_false i.stopSlice hpolls 4 0])]
  · intro cfg i rest h1 h2
    have hc : cStep cfg i = .done .crashed := by
      simp only [cStep, h1, Bool.false_eq_true, if_false]
      rcases h2 with h2 | h2
      · rw [h2]
      · rw [h2]
        cases i.beforeTxt <;> rfl
    rw [cRun_cons, hc]

theorem C7_sampling_failure_handling_witness :
    kStep false [] ⟨false, none, fun _ => false⟩ = .next [] ∧
    cRun defaultCfg [⟨false, some "".data, none, false, fun _ => false⟩] = .crashed :=
  ⟨C7_sampling_failure_handling.1 false [] _ rfl rfl (fun _ => rfl),
   C7_sampling_failure_handling.2 defaultCfg _ [] rfl (Or.inr rfl)⟩

/-! ### Claim C6: comparative-mode parsing is last-match-wins

Each field of the stats dictionary is characterised by a per-line
"contribution": `some v` when the line carries the field's label and the
`+`-delimited integer parses, `none` otherwise; the fold keeps the last
`some`. -/

/-- Per-line contribution to `main_stat`. -/
def mainContrib (cfg : Cfg) (line : List Char) : Option Int :=
  if listContains (normLine line) cfg.mainStat then plusIntOf false (normLine line) else none

/-- Per-line contribution to `secondary_stat`. -/
def secondaryContrib (cfg : Cfg) (line : List Char) : Option Int :=
  if listContains (normLine line) cfg.secondaryStat then plusIntOf false (normLine line)
  else none

/-- Per-line contribution to `weapon_attack`. -/
def weaponContrib (line : List Char) : Option Int :=
  if listContains (normLine line) wAtkLong || listContains (normLine line) wAtkShort then
    plusIntOf false (normLine line)
  else none

/-- Per-line contribution to `all_stat_percent`. -/
def allStatContrib (line : List Char) : Option Int :=
  if listContains (normLine line) allStatsLabel then plusIntOf true (normLine line) else none

/-- Last-some fold: the value a field ends with after a sequence of per-line
contributions, starting from the default `d`. -/
def lastContrib (c : List Char → Option Int) (lines : List (List Char)) (d : Int) : Int :=
  lines.foldl (fun a l => (c l).getD a) d

lemma updMain_eq (cfg : Cfg) (l : List Char) (s : StatMapping) :
    updMain cfg l s =
      { s with main_stat := ((if listContains l cfg.mainStat then plusIntOf false l else none).getD s.main_stat) } := by
  rw [updMain]
  by_cases h : listContains l cfg.mainStat
  · rw [if_pos h, if_pos h]
    cases hp : plusIntOf false l
    · rfl
    · rfl
  · rw [if_neg h, if_neg h]
    rfl

lemma updSecondary_eq (cfg : Cfg) (l : List Char) (s : StatMapping) :
    updSecondary cfg l s =
      { s with secondary_stat := ((if listContains l cfg.secondaryStat then plusIntOf false l else none).getD s.secondary_stat) } := by
  rw [updSecondary]
  by_cases h : listContains l cfg.secondaryStat
  · rw [if_pos h, if_pos h]
    cases hp : plusIntOf false l
    · rfl
    · rfl
  · rw [if_neg h, if_neg h]
    rfl

lemma updWeapon_eq (l : List Char) (s : StatMapping) :
    updWeapon l s =
      { s with weapon_attack := ((if listContains l wAtkLong || listContains l wAtkShort then plusIntOf false l else none).getD s.weapon_attack) } := by
  rw [updWeapon]
  by_cases h : (listContains l wAtkLong || listContains l wAtkShort : Bool)
  · rw [if_pos h, if_pos h]
    cases hp : plusIntOf false l
    · rfl
    · rfl
  · rw [if_neg h, if_neg h]
    rfl

lemma updAllStat_eq (l : List Char) (s : StatMapping) :
    updAllStat l s =
      { s with all_stat_percent := ((if listContains l allStatsLabel then plusIntOf true l else none).getD s.all_stat_percent) } := by
  rw [updAllStat]
  by_cases h : listContains l allStatsLabel
  · rw [if_pos h, if_pos h]
    cases hp : plusIntOf true l
    · rfl
    · rfl
  · rw [if_neg h, if_neg h]
    rfl

lemma processLine_main (cfg : Cfg) (s : StatMapping) (line : List Char) :
    (processLine cfg s line).main_stat = (mainContrib cfg line).getD s.main_stat := by
  simp only [processLine, updMain_eq, updSecondary_eq, updWeapon_eq, updAllStat_eq,
    mainContrib]

lemma processLine_secondary (cfg : Cfg) (s : StatMapping) (line : List Char) :
    (processLine cfg s line).secondary_stat =
      (secondaryContrib cfg line).getD s.secondary_stat := by
  simp only [processLine, updMain_eq, updSecondary_eq, updWeapon_eq, updAllStat_eq,
    secondaryContrib]

lemma processLine_weapon (cfg : Cfg) (s : StatMapping) (line : List Char) :
    (processLine cfg s line).weapon_attack = (weaponContrib line).getD s.weapon_attack := by
  simp only [processLine, updMain_eq, updSecondary_eq, updWeapon_eq, updAllStat_eq,
    weaponContrib]

lemma processLine_allstat (cfg : Cfg) (s : StatMapping) (line : List Char) :
    (processLine cfg s line).all_stat_percent =
      (allStatContrib line).getD s.all_stat_percent := by
  simp only [processLine, updMain_eq, updSecondary_eq, updWeapon_eq, updAllStat_eq,
    allStatContrib]

lemma foldl_field (cfg : Cfg) (g : StatMapping → Int) (c : List Char → Option Int)
    (hstep : ∀ s line, g (processLine cfg s line) = (c line).getD (g s)) :
    ∀ (lines : List (List Char)) (s : StatMapping),
      g (lines.foldl (processLine cfg) s) = lastContrib c lines (g s) := by
  intro lines
  induction lines with
  | nil => intro s; rfl
  | cons l rest ih =>
    intro s
    rw [List.foldl_cons, ih, hstep]
    rfl

lemma splitOnChar_cons (sep c : Char) (rest : List Char) :
    splitOnChar sep (c :: rest) =
      match splitOnChar sep rest with
      | [] => [[c]]
      | h :: t => if c = sep then [] :: h :: t else (c :: h) :: t := rfl

lemma splitOnChar_no_sep (sep : Char) :
    ∀ l : List Char, sep ∉ l → splitOnChar sep l = [l] := by
  intro l
  induction l with
  | nil => intro _; rfl
  | cons c rest ih =>
    intro h
    have hc : c ≠ sep := fun e => h (e ▸ List.mem_cons_self c rest)
    have hr : sep ∉ rest := fun hm => h (List.mem_cons_of_mem c hm)
    rw [splitOnChar_cons, ih hr]
    simp [hc]

lemma splitOnChar_sep_append (sep : Char) (l2 : List Char) (h2 : sep ∉ l2) :
    ∀ l1 : List Char, sep ∉ l1 → splitOnChar sep (l1 ++ sep :: l2) = [l1, l2] := by
  intro l1
  induction l1 with
  | nil =>
    intro _
    rw [List.nil_append, splitOnChar_cons, splitOnChar_no_sep sep l2 h2]
    simp
  | cons c rest ih =>
    intro h1
    have hc : c ≠ sep := fun e => h1 (e ▸ List.mem_cons_self c rest)
    have hr : sep ∉ rest := fun hm => h1 (List.mem_cons_of_mem c hm)
    rw [List.cons_append, splitOnChar_cons, ih hr]
    simp [hc]

/-- C6: within one text, the comparative parser is last-match-wins per field:
each of the four parsed fields ends as the last line's parsed contribution
(lines whose label is absent, or whose `+`-delimited integer is missing or
unparsable, contribute nothing and leave the field at its default or prior
value — the parser is total, so no exception propagates); consequently for a
two-line text whose lines both match the same label with parsable integers,
the final field value is the second line's integer. -/
theorem C6_comparative_last_match_wins :
    (∀ (cfg : Cfg) (text : List Char),
      (extract_stats cfg text).main_stat =
        lastContrib (mainContrib cfg) (splitOnChar '\n' text) 0 ∧
      (extract_stats cfg text).secondary_stat =
        lastContrib (secondaryContrib cfg) (splitOnChar '\n' text) 0 ∧
      (extract_stats cfg text).weapon_attack =
        lastContrib weaponContrib (splitOnChar '\n' text) 0 ∧
      (extract_stats cfg text).all_stat_percent =
        lastContrib allStatContrib (splitOnChar '\n' text) 0) ∧
    (∀ (cfg : Cfg) (l1 l2 : List Char) (v1 v2 : Int),
      ('\n') ∉ l1 → ('\n') ∉ l2 →
      secondaryContrib cfg l1 = some v1 → secondaryContrib cfg l2 = some v2 →
      (extract_stats cfg (l1 ++ '\n' :: l2)).secondary_stat = v2) := by
  have hmain : ∀ (cfg : Cfg) (text : List Char),
      (extract_stats cfg text).main_stat =
        lastContrib (mainContrib cfg) (splitOnChar '\n' text) 0 :=
    fun cfg text =>
      foldl_field cfg (fun s => s.main_stat) (mainContrib cfg)
        (fun s line => processLine_main cfg s line) (splitOnChar '\n' text) ⟨0, 0, 0, 0, 0⟩
  have hsec : ∀ (cfg : Cfg) (text : List Char),
      (extract_stats cfg text).secondary_stat =
        lastContrib (secondaryContrib cfg) (splitOnChar '\n' text) 0 :=
    fun cfg text =>
      foldl_field cfg (fun s => s.secondary_stat) (secondaryContrib cfg)
        (fun s line => processLine_secondary cfg s line) (splitOnChar '\n' text)
        ⟨0, 0, 0, 0, 0⟩
  have hweap : ∀ (cfg : Cfg) (text : List Char),
      (extract_stats cfg text).weapon_attack =
        lastContrib weaponContrib (splitOnChar '\n' text) 0 :=
    fun cfg text =>
      foldl_field cfg (fun s => s.weapon_attack) weaponContrib
        (fun s line => processLine_weapon cfg s line) (splitOnChar '\n' text) ⟨0, 0, 0, 0, 0⟩
  have hall : ∀ (cfg : Cfg) (text : List Char),
      (extract_stats cfg text).all_stat_percent =
        lastContrib allStatContrib (splitOnChar '\n' text) 0 :=
    fun cfg text =>
      foldl_field cfg (fun s => s.all_stat_percent) allStatContrib
        (fun s line => processLine_allstat cfg s line) (splitOnChar '\n' text) ⟨0, 0, 0, 0, 0⟩
  refine ⟨fun cfg text => ⟨hmain cfg text, hsec cfg text, hweap cfg text, hall cfg text⟩, ?_⟩
  intro cfg l1 l2 v1 v2 hn1 hn2 hc1 hc2
  rw [hsec cfg (l1 ++ '\n' :: l2), splitOnChar_sep_append '\n' l2 hn2 l1 hn1]
  show (secondaryContrib cfg l2).getD ((secondaryContrib cfg l1).getD 0) = v2
  rw [hc1, hc2]
  rfl

theorem C6_comparative_last_match_wins_witness :
    (extract_stats defaultCfg ("STR +5".data ++ '\n' :: "STR: +9".data)).secondary_stat =
      9 :=
  C6_comparative_last_match_wins.2 defaultCfg ("STR +5".data) ("STR: +9".data) 5 9
    (by decide) (by decide) (by decide) (by decide)

/-! ### Claim C5: supporting lemmas about the pattern matcher -/

lemma dropLabel_lower (t₁ : List Char) : ∀ z, dropLabel (lower t₁) (t₁ ++ z) = some z := by
  induction t₁ with
  | nil => intro z; rfl
  | cons c cs ih =>
    intro z
    show dropLabel (c.toLower :: lower cs) (c :: (cs ++ z)) = some z
    simp [dropLabel, ih z]

lemma dropLabel_decomp :
    ∀ (lbl t r : List Char), dropLabel lbl t = some r →
      ∃ t₁, t = t₁ ++ r ∧ lower t₁ = lbl := by
  intro lbl
  induction lbl with
  | nil =>
    intro t r h
    refine ⟨[], ?_, rfl⟩
    rw [List.nil_append]
    exact Option.some.inj h
  | cons l ls ih =>
    intro t r h
    cases t with
    | nil => exact absurd h (by simp [dropLabel])
    | cons c cs =>
      rw [show dropLabel (l :: ls) (c :: cs) =
            (if c.toLower = l then dropLabel ls cs else none) from rfl] at h
      split at h
      · obtain ⟨t₁, ht, hl⟩ := ih cs r h
        refine ⟨c :: t₁, ?_, ?_⟩
        · rw [List.cons_append, ht]
        · show c.toLower :: lower t₁ = l :: ls
          rw [hl]
          congr 1
      · cases h

lemma matchPat_decomp (lbl t : List Char) (p : Nat × List Char)
    (h : matchPat lbl t = some p) : ∃ t₁ r, t = t₁ ++ r ∧ lower t₁ = lbl := by
  rw [matchPat] at h
  cases hd : dropLabel lbl t with
  | none => rw [hd] at h; cases h
  | some t1 =>
    obtain ⟨t₁, ht, hl⟩ := dropLabel_decomp lbl t t1 hd
    exact ⟨t₁, t1, ht, hl⟩

lemma matchPat_nil (lbl : List Char) : matchPat lbl [] = none := by
  cases lbl <;> rfl

lemma dropLabel_len (lbl t r : List Char) (h : dropLabel lbl t = some r) :
    r.length ≤ t.length := by
  obtain ⟨t₁, ht, _⟩ := dropLabel_decomp lbl t r h
  rw [ht]
  simp

lemma dropOne_len (x : Char) (t : List Char) : (dropOne x t).length ≤ t.length := by
  cases t with
  | nil => simp [dropOne]
  | cons c r =>
    rw [dropOne]
    split <;> simp

lemma length_dropWhile_le (p : Char → Bool) :
    ∀ t : List Char, (t.dropWhile p).length ≤ t.length := by
  intro t
  induction t with
  | nil => simp
  | cons c r ih =>
    rw [List.dropWhile_cons]
    split
    · exact Nat.le_trans ih (by simp)
    · simp

lemma matchPat_shrink (lbl t : List Char) (v : Nat) (r : List Char)
    (h : matchPat lbl t = some (v, r)) : r.length < t.length := by
  rw [matchPat] at h
  cases hd : dropLabel lbl t with
  | none => rw [hd] at h; cases h
  | some t1 =>
    rw [hd] at h
    have hlen1 : t1.length ≤ t.length := dropLabel_len lbl t t1 hd
    have hlen2 : (dropOne '+' ((dropOne ':' t1).dropWhile isSpaceChar)).length ≤ t1.length := by
      refine Nat.le_trans (dropOne_len '+' _) ?_
      refine Nat.le_trans (length_dropWhile_le isSpaceChar _) ?_
      exact dropOne_len ':' t1
    simp only [matchTail] at h
    split at h
    · cases h
    · split at h
      · rename_i t4 heq
        simp only [Option.some.injEq, Prod.mk.injEq] at h
        obtain ⟨-, hr⟩ := h
        have hlen3 :
            ((dropOne '+' ((dropOne ':' t1).dropWhile isSpaceChar)).dropWhile
                Char.isDigit).length ≤
              (dropOne '+' ((dropOne ':' t1).dropWhile isSpaceChar)).length :=
          length_dropWhile_le Char.isDigit _
        rw [heq] at hlen3
        rw [← hr]
        simp only [List.length_cons] at hlen3
        omega
      · cases h

lemma scanAux_fuel (lbl : List Char) : ∀ (n f : Nat) (t : List Char),
    t.length ≤ n → t.length ≤ f → scanAux lbl f t = scanAux lbl n t := by
  intro n
  induction n with
  | zero =>
    intro f t hn _
    have ht : t = [] := List.eq_nil_of_length_eq_zero (by omega)
    subst ht
    cases f <;> rfl
  | succ n ih =>
    intro f t hn hf
    cases t with
    | nil => cases f <;> rfl
    | cons c rest =>
      have hlen : rest.length + 1 ≤ f := by simpa using hf
      obtain ⟨f', rfl⟩ : ∃ f', f = f' + 1 := ⟨f - 1, by omega⟩
      simp only [scanAux]
      cases hm : matchPat lbl (c :: rest) with
      | none =>
        exact ih f' rest (by simp at hn; omega) (by omega)
      | some p =>
        obtain ⟨v, r⟩ := p
        have hr : r.length < rest.length + 1 := by
          simpa using matchPat_shrink lbl (c :: rest) v r hm
        show v + scanAux lbl f' r = v + scanAux lbl n r
        rw [ih f' r (by simp at hn; omega) (by omega)]

lemma scanSum_cons_none (lbl : List Char) (c : Char) (t : List Char)
    (h : matchPat lbl (c :: t) = none) : scanSum lbl (c :: t) = scanSum lbl t := by
  show scanAux lbl ((c :: t).length) (c :: t) = scanSum lbl t
  rw [List.length_cons]
  simp only [scanAux, h]
  rfl

lemma scanSum_match (lbl t : List Char) (v : Nat) (r : List Char)
    (h : matchPat lbl t = some (v, r)) : scanSum lbl t = v + scanSum lbl r := by
  cases t with
  | nil => rw [matchPat_nil] at h; cases h
  | cons c rest =>
    show scanAux lbl ((c :: rest).length) (c :: rest) = _
    rw [List.length_cons]
    simp only [scanAux, h]
    have hr : r.length ≤ rest.length := by
      have := matchPat_shrink lbl (c :: rest) v r h
      simp at this
      omega
    rw [scanAux_fuel lbl r.length rest.length r (le_refl _) hr]
    rfl

/-! Substring facts for `listContains`. -/

lemma startsWith_append (n q : List Char) : startsWith (n ++ q) n = true := by
  induction n with
  | nil => cases q <;> rfl
  | cons c m ih => simp [startsWith, ih]

lemma listContains_nil_needle : ∀ h : List Char, listContains h [] = true := by
  intro h
  cases h <;> rfl

lemma listContains_append (p n q : List Char) :
    listContains (p ++ (n ++ q)) n = true := by
  induction p with
  | nil =>
    cases n with
    | nil => exact listContains_nil_needle ([] ++ ([] ++ q))
    | cons c m =>
      rw [List.nil_append]
      have h1 : startsWith ((c :: m) ++ q) (c :: m) = true := startsWith_append (c :: m) q
      show (startsWith (c :: (m ++ q)) (c :: m) || listContains (m ++ q) (c :: m)) = true
      rw [show (c : Char) :: (m ++ q) = (c :: m) ++ q from rfl, h1]
      rfl
  | cons a p' ih =>
    show (startsWith (a :: (p' ++ (n ++ q))) n || listContains (p' ++ (n ++ q)) n) = true
    rw [ih]
    simp

lemma listContains_cons_false {c : Char} {t n : List Char}
    (h : listContains (c :: t) n = false) : listContains t n = false := by
  have h' : (startsWith (c :: t) n || listContains t n) = false := h
  rcases Bool.or_eq_false_iff.mp h' with ⟨_, h2⟩
  exact h2

lemma contains_of_decomp (lbl t t₁ r : List Char) (ht : t = t₁ ++ r)
    (hl : lower t₁ = lbl) : listContains (lower t) lbl = true := by
  subst ht
  have hsplit : lower (t₁ ++ r) = lbl ++ lower r := by
    rw [show lower (t₁ ++ r) = lower t₁ ++ lower r from List.map_append _ _ _, hl]
  rw [hsplit]
  simpa using listContains_append [] lbl (lower r)

lemma scanSum_zero (lbl : List Char) :
    ∀ t : List Char, listContains (lower t) lbl = false → scanSum lbl t = 0 := by
  intro t
  induction t with
  | nil => intro _; rfl
  | cons c t' ih =>
    intro h
    have hm : matchPat lbl (c :: t') = none := by
      cases hmp : matchPat lbl (c :: t') with
      | none => rfl
      | some p =>
        exfalso
        obtain ⟨t₁, r, heq, hl⟩ := matchPat_decomp lbl _ p hmp
        have hc := contains_of_decomp lbl (c :: t') t₁ r heq hl
        rw [hc] at h
        exact Bool.false_ne_true h.symm
    rw [scanSum_cons_none lbl c t' hm]
    refine ih ?_
    rw [show lower (c :: t') = c.toLower :: lower t' from rfl] at h
    exact listContains_cons_false h

/-! ### Claim C5: well-formed occurrences and interleaving -/

/-- One well-formed occurrence of the pattern
`<label> [optional colon] <whitespace> [optional plus] <digits> %`, in the
shape the regex `<Label>:?\s*\+?(\d+)%` accepts. -/
structure Occ where
  labelRaw : List Char
  hasColon : Bool
  ws : List Char
  hasPlus : Bool
  digits : List Char

/-- The text of an occurrence. -/
def occText (o : Occ) : List Char :=
  o.labelRaw ++ ((if o.hasColon then [':'] else []) ++
    (o.ws ++ ((if o.hasPlus then ['+'] else []) ++ (o.digits ++ ['%']))))

/-- Well-formedness: the label matches `lbl` case-insensitively, the gap is
whitespace, and the digit group is a nonempty digit string. -/
abbrev goodOcc (lbl : List Char) (o : Occ) : Prop :=
  lower o.labelRaw = lbl ∧ (∀ c ∈ o.ws, isSpaceChar c = true) ∧
    o.digits ≠ [] ∧ (∀ c ∈ o.digits, c.isDigit = true)

/-- A text interleaving unrelated chunks with well-formed occurrences: an
initial chunk, then each occurrence followed by its trailing chunk; every
chunk is closed by a newline so that chunks and occurrences sit on separate
lines. -/
def assemble : List Char → List (Occ × List Char) → List Char
  | u, [] => u ++ ['\n']
  | u, (o, u') :: ps => (u ++ ['\n']) ++ (occText o ++ assemble u' ps)

lemma space_char_cases (c : Char) (h : isSpaceChar c = true) :
    c = ' ' ∨ c = '\t' ∨ c = '\n' ∨ c = '\r' ∨ c = Char.ofNat 11 ∨ c = Char.ofNat 12 := by
  simp only [isSpaceChar, Bool.or_eq_true, beq_iff_eq] at h
  tauto

lemma space_ne_colon (c : Char) (h : isSpaceChar c = true) : c ≠ ':' := by
  rcases space_char_cases c h with rfl | rfl | rfl | rfl | rfl | rfl <;> decide

lemma digit_not_space (c : Char) (h : c.isDigit = true) : isSpaceChar c = false := by
  cases hsp : isSpaceChar c with
  | false => rfl
  | true =>
    exfalso
    rcases space_char_cases c hsp with rfl | rfl | rfl | rfl | rfl | rfl <;>
      exact absurd h (by decide)

lemma digit_ne_colon (c : Char) (h : c.isDigit = true) : c ≠ ':' := by
  intro e
  rw [e] at h
  exact absurd h (by decide)

lemma digit_ne_plus (c : Char) (h : c.isDigit = true) : c ≠ '+' := by
  intro e
  rw [e] at h
  exact absurd h (by decide)

lemma dropOne_cons_self (x : Char) (r : List Char) : dropOne x (x :: r) = r := by
  simp [dropOne]

lemma dropOne_cons_ne (x c : Char) (r : List Char) (h : c ≠ x) :
    dropOne x (c :: r) = c :: r := by
  simp [dropOne, h]

lemma dropSpacesPlus_eval (hp : Bool) (ws : List Char) (d : Char) (ds' t4 : List Char)
    (hws : ∀ c ∈ ws, isSpaceChar c = true) (hdd : d.isDigit = true) :
    dropOne '+'
        ((ws ++ ((if hp then ['+'] else []) ++ ((d :: ds') ++ '%' :: t4))).dropWhile
          isSpaceChar) =
      (d :: ds') ++ '%' :: t4 := by
  rw [List.dropWhile_append_of_pos hws]
  cases hp with
  | true =>
    show dropOne '+' (List.dropWhile isSpaceChar ('+' :: ((d :: ds') ++ '%' :: t4))) = _
    rw [List.dropWhile_cons_of_neg (by decide)]
    exact dropOne_cons_self '+' _
  | false =>
    show dropOne '+' (List.dropWhile isSpaceChar (d :: (ds' ++ '%' :: t4))) = _
    rw [List.dropWhile_cons_of_neg (by simp [digit_not_space d hdd])]
    exact dropOne_cons_ne '+' d _ (digit_ne_plus d hdd)

lemma afterLabel_eval (hc hp : Bool) (ws : List Char) (d : Char) (ds' t4 : List Char)
    (hws : ∀ c ∈ ws, isSpaceChar c = true) (hdd : d.isDigit = true) :
    dropOne '+'
        ((dropOne ':'
            ((if hc then [':'] else []) ++
              (ws ++ ((if hp then ['+'] else []) ++ ((d :: ds') ++ '%' :: t4))))).dropWhile
          isSpaceChar) =
      (d :: ds') ++ '%' :: t4 := by
  cases hc with
  | true =>
    show dropOne '+'
        ((dropOne ':'
            (':' :: (ws ++ ((if hp then ['+'] else []) ++ ((d :: ds') ++ '%' :: t4))))).dropWhile
          isSpaceChar) = _
    rw [dropOne_cons_self]
    exact dropSpacesPlus_eval hp ws d ds' t4 hws hdd
  | false =>
    show dropOne '+'
        ((dropOne ':'
            ([] ++ (ws ++ ((if hp then ['+'] else []) ++ ((d :: ds') ++ '%' :: t4))))).dropWhile
          isSpaceChar) = (d :: ds') ++ '%' :: t4
    have hcol : dropOne ':'
        ([] ++ (ws ++ ((if hp then ['+'] else []) ++ ((d :: ds') ++ '%' :: t4)))) =
        ws ++ ((if hp then ['+'] else []) ++ ((d :: ds') ++ '%' :: t4)) := by
      rw [List.nil_append]
      cases ws with
      | cons w ws' =>
        exact dropOne_cons_ne ':' w _ (space_ne_colon w (hws w (List.mem_cons_self w ws')))
      | nil =>
        rw [List.nil_append]
        cases hp with
        | true => exact dropOne_cons_ne ':' '+' _ (by decide)
        | false =>
          show dropOne ':' (d :: (ds' ++ '%' :: t4)) = _
          exact dropOne_cons_ne ':' d _ (digit_ne_colon d hdd)
    rw [hcol]
    exact dropSpacesPlus_eval hp ws d ds' t4 hws hdd

lemma matchTail_eval (t1 ds t4 : List Char)
    (h2 : dropOne '+' ((dropOne ':' t1).dropWhile isSpaceChar) = ds ++ '%' :: t4)
    (hds : ds ≠ []) (hdig : ∀ c ∈ ds, c.isDigit = true) :
    matchTail t1 = some (digitsVal ds, t4) := by
  simp only [matchTail, h2]
  rw [List.takeWhile_append_of_pos hdig,
    List.takeWhile_cons_of_neg (by decide : ¬ (('%' : Char).isDigit = true)),
    List.append_nil,
    List.dropWhile_append_of_pos hdig,
    List.dropWhile_cons_of_neg (by decide : ¬ (('%' : Char).isDigit = true)),
    if_neg hds]
  rfl

lemma matchPat_occ (lbl : List Char) (o : Occ) (rest : List Char) (hg : goodOcc lbl o) :
    matchPat lbl (occText o ++ rest) = some (digitsVal o.digits, rest) := by
  obtain ⟨lr, hc, ws, hp, ds⟩ := o
  obtain ⟨h1, h2, h3, h4⟩ := hg
  simp only [occText] at *
  obtain ⟨d, ds', rfl⟩ : ∃ d ds', ds = d :: ds' := by
    cases ds with
    | nil => exact absurd rfl h3
    | cons d ds' => exact ⟨d, ds', rfl⟩
  have hdd : d.isDigit = true := h4 d (List.mem_cons_self d ds')
  have hT : (lr ++ ((if hc then [':'] else []) ++
        (ws ++ ((if hp then ['+'] else []) ++ ((d :: ds') ++ ['%']))))) ++ rest =
      lr ++ ((if hc then [':'] else []) ++
        (ws ++ ((if hp then ['+'] else []) ++ ((d :: ds') ++ '%' :: rest)))) := by
    simp [List.append_assoc]
  rw [hT]
  have hdl : dropLabel lbl
      (lr ++ ((if hc then [':'] else []) ++
        (ws ++ ((if hp then ['+'] else []) ++ ((d :: ds') ++ '%' :: rest))))) =
      some ((if hc then [':'] else []) ++
        (ws ++ ((if hp then ['+'] else []) ++ ((d :: ds') ++ '%' :: rest)))) := by
    rw [← h1]
    exact dropLabel_lower lr _
  simp only [matchPat, hdl]
  exact matchTail_eval _ (d :: ds') rest (afterLabel_eval hc hp ws d ds' rest h2 hdd)
    (by simp) h4

/-! No match can start inside a chunk that does not contain the label:
the label cannot span the closing newline. -/

lemma append_decomp_no_nl :
    ∀ (t₁ x y r : List Char), t₁ ++ r = x ++ '\n' :: y → '\n' ∉ t₁ →
      ∃ r', x = t₁ ++ r' := by
  intro t₁
  induction t₁ with
  | nil =>
    intro x y r _ _
    exact ⟨x, rfl⟩
  | cons c t ih =>
    intro x y r heq hmem
    cases x with
    | nil =>
      rw [List.nil_append, List.cons_append] at heq
      have hc : c = '\n' := (List.cons.injEq c (t ++ r) '\n' y).mp heq |>.1
      exfalso
      apply hmem
      rw [← hc]
      exact List.mem_cons_self c t
    | cons a x' =>
      rw [List.cons_append, List.cons_append] at heq
      have h1 : c = a := (List.cons.injEq c (t ++ r) a (x' ++ '\n' :: y)).mp heq |>.1
      have h2 : t ++ r = x' ++ '\n' :: y :=
        (List.cons.injEq c (t ++ r) a (x' ++ '\n' :: y)).mp heq |>.2
      obtain ⟨r', hr⟩ := ih x' y r h2 (fun hm => hmem (List.mem_cons_of_mem c hm))
      refine ⟨r', ?_⟩
      rw [List.cons_append, ← hr, h1]

lemma matchPat_nl (lbl rest : List Char) (hne : lbl ≠ []) (hnl : '\n' ∉ lbl) :
    matchPat lbl ('\n' :: rest) = none := by
  cases lbl with
  | nil => exact absurd rfl hne
  | cons l ls =>
    have hl : ¬ (('\n' : Char).toLower = l) := by
      have hne' : l ≠ '\n' := fun e => hnl (e ▸ List.mem_cons_self l ls)
      have hlow : ('\n' : Char).toLower = '\n' := by decide
      rw [hlow]
      exact fun e => hne' e.symm
    have hd : dropLabel (l :: ls) ('\n' :: rest) = none := by
      show (if ('\n' : Char).toLower = l then dropLabel ls rest else none) = none
      rw [if_neg hl]
    simp only [matchPat, hd]

lemma scan_junk_block (lbl : List Char) (hnl : '\n' ∉ lbl) :
    ∀ (u rest : List Char), listContains (lower u) lbl = false →
      scanSum lbl (u ++ '\n' :: rest) = scanSum lbl rest := by
  intro u
  induction u with
  | nil =>
    intro rest hu
    have hne : lbl ≠ [] := by
      rintro rfl
      rw [listContains_nil_needle] at hu
      exact Bool.false_ne_true hu.symm
    rw [List.nil_append, scanSum_cons_none lbl '\n' rest (matchPat_nl lbl rest hne hnl)]
  | cons c u' ih =>
    intro rest hu
    have hm : matchPat lbl (c :: (u' ++ '\n' :: rest)) = none := by
      cases hmp : matchPat lbl (c :: (u' ++ '\n' :: rest)) with
      | none => rfl
      | some p =>
        exfalso
        obtain ⟨t₁, r, heq, hl⟩ := matchPat_decomp lbl _ p hmp
        have hnt : '\n' ∉ t₁ := by
          intro hm'
          apply hnl
          rw [← hl]
          have h0 : Char.toLower '\n' ∈ List.map Char.toLower t₁ :=
            List.mem_map_of_mem Char.toLower hm'
          rw [show Char.toLower '\n' = '\n' from by decide] at h0
          exact h0
        have heq' : t₁ ++ r = (c :: u') ++ '\n' :: rest := by
          rw [← heq, List.cons_append]
        obtain ⟨r', hru⟩ := append_decomp_no_nl t₁ (c :: u') rest r heq' hnt
        have hc := contains_of_decomp lbl (c :: u') t₁ r' hru hl
        rw [hc] at hu
        exact Bool.false_ne_true hu.symm
    rw [List.cons_append, scanSum_cons_none lbl c _ hm]
    refine ih rest ?_
    rw [show lower (c :: u') = c.toLower :: lower u' from rfl] at hu
    exact listContains_cons_false hu

lemma scan_assemble (lbl : List Char) (hnl : '\n' ∉ lbl) :
    ∀ (ps : List (Occ × List Char)) (u : List Char),
      listContains (lower u) lbl = false →
      (∀ p ∈ ps, goodOcc lbl p.1 ∧ listContains (lower p.2) lbl = false) →
      scanSum lbl (assemble u ps) = (ps.map (fun p => digitsVal p.1.digits)).sum := by
  intro ps
  induction ps with
  | nil =>
    intro u hu _
    show scanSum lbl (u ++ ['\n']) = 0
    rw [show u ++ ['\n'] = u ++ '\n' :: ([] : List Char) from rfl,
      scan_junk_block lbl hnl u [] hu]
    rfl
  | cons p ps ih =>
    intro u hu hps
    obtain ⟨o, u'⟩ := p
    obtain ⟨⟨hg1, hg2, hg3, hg4⟩, hu'⟩ := hps (o, u') (List.mem_cons_self _ _)
    have hrest : ∀ q ∈ ps, goodOcc lbl q.1 ∧ listContains (lower q.2) lbl = false :=
      fun q hq => hps q (List.mem_cons_of_mem _ hq)
    show scanSum lbl ((u ++ ['\n']) ++ (occText o ++ assemble u' ps)) = _
    rw [show (u ++ ['\n']) ++ (occText o ++ assemble u' ps) =
          u ++ '\n' :: (occText o ++ assemble u' ps) by simp,
      scan_junk_block lbl hnl u _ hu,
      scanSum_match lbl _ _ _ (matchPat_occ lbl o (assemble u' ps) ⟨hg1, hg2, hg3, hg4⟩),
      ih u' hu' hrest]
    simp

/-- C5: for every text assembled by interleaving unrelated newline-closed
chunks (whose lower-cased content does not contain the category label) with
well-formed occurrences of `<label> [optional colon] [whitespace]
[optional '+'] <digits> %`, the keyword-mode extractor returns, for each
category, the sum of the integer values of all the occurrences; and on any
text whose lower-cased content does not contain the label at all, the
accumulator is 0 (the extractor is a total function, so no exception is
raised). -/
theorem C5_keyword_parser_accumulates :
    (∀ (u : List Char) (ps : List (Occ × List Char)),
      listContains (lower u) itemLabel = false →
      (∀ p ∈ ps, goodOcc itemLabel p.1 ∧ listContains (lower p.2) itemLabel = false) →
      extract_item_drop_rate (assemble u ps) =
        (ps.map (fun p => digitsVal p.1.digits)).sum) ∧
    (∀ (u : List Char) (ps : List (Occ × List Char)),
      listContains (lower u) mesosLabel = false →
      (∀ p ∈ ps, goodOcc mesosLabel p.1 ∧ listContains (lower p.2) mesosLabel = false) →
      extract_mesos_obtained (assemble u ps) =
        (ps.map (fun p => digitsVal p.1.digits)).sum) ∧
    (∀ t : List Char, listContains (lower t) itemLabel = false →
      extract_item_drop_rate t = 0) ∧
    (∀ t : List Char, listContains (lower t) mesosLabel = false →
      extract_mesos_obtained t = 0) := by
  refine ⟨?_, ?_, ?_, ?_⟩
  · intro u ps hu hps
    exact scan_assemble itemLabel (by decide) ps u hu hps
  · intro u ps hu hps
    exact scan_assemble mesosLabel (by decide) ps u hu hps
  · intro t ht
    exact scanSum_zero itemLabel t ht
  · intro t ht
    exact scanSum_zero mesosLabel t ht

def c5occ1 : Occ := ⟨"Item Drop Rate".data, true, [' '], true, ['1', '2']⟩

def c5occ2 : Occ := ⟨"item DROP rate".data, false, [], false, ['3']⟩

theorem C5_keyword_parser_accumulates_witness :
    extract_item_drop_rate
        (assemble ("junk line".data) [(c5occ1, "noise 7%".data), (c5occ2, [])]) = 15 := by
  have h := C5_keyword_parser_accumulates.1 ("junk line".data)
    [(c5occ1, "noise 7%".data), (c5occ2, [])] (by decide) (by decide)
  rw [h]
  decide

end MapleFlame
